import Mathlib

/-!
Verification of the resumable document-analysis pipeline.
JavaScript strings are modelled as `List Char`; JS string operations
(`split("\n")`, `trim()`, `includes`, `toLowerCase`, the page-marker regex
match) are given executable definitions below, each translated from the
corresponding construct in the source.  JS numbers appearing as page
numbers, retry counts and delays are modelled as `Nat`; the fractional
progress arithmetic of the continuation loop is modelled exactly over the
rationals it denotes, with `Math.round (num/den)` computed as
`(2*num + den) / (2*den)` in natural division (`roundHalfUp`).
-/

namespace Summarizer

/-! ## Definitions (shallow embedding of the source) -/

/-- JS whitespace test used by `trim()`; modelled by the core whitespace
characters (space, tab, carriage return, newline). -/
def isWs (c : Char) : Bool := c.isWhitespace

/-- Model of JavaScript `String.prototype.trim`: drop whitespace from the
front, then from the back. -/
def trim (l : List Char) : List Char :=
  ((l.dropWhile isWs).reverse.dropWhile isWs).reverse

/-- Model of JavaScript `text.split("\n")`: split at every newline,
keeping empty pieces (`"".split("\n") = [""]`). -/
def splitLines : List Char → List (List Char)
  | [] => [[]]
  | c :: rest =>
    if c = '\n' then [] :: splitLines rest
    else
      match splitLines rest with
      | [] => [[c]]
      | l :: ls => (c :: l) :: ls

/-- Model of `Array.prototype.join("")` on a list of captured lines where
the source appended `line + "\n"` for each line. -/
def appendNL : List (List Char) → List Char
  | [] => []
  | l :: rest => l ++ '\n' :: appendNL rest

/-- `chunkTextForProcessing`, inner line loop (src/unnamed/part_002
lines 79–96): accumulate lines into `currentChunk`; flush (trimmed) when
adding the next line would exceed the budget and the buffer is non-empty;
finally flush the trimmed buffer if it is non-empty after trimming. -/
def chunkLoop (maxChars : Nat) : List (List Char) → List (List Char) → List Char → List (List Char)
  | [], chunks, currentChunk =>
    if trim currentChunk ≠ [] then chunks ++ [trim currentChunk] else chunks
  | line :: rest, chunks, currentChunk =>
    if maxChars < (currentChunk ++ line).length ∧ 0 < currentChunk.length then
      chunkLoop maxChars rest (chunks ++ [trim currentChunk]) (line ++ ['\n'])
    else
      chunkLoop maxChars rest chunks (currentChunk ++ line ++ ['\n'])

/-- `chunkTextForProcessing` (src/unnamed/part_002 lines 66–97).  The
token budget is treated as a character budget (`maxChars = maxTokens`);
a text no longer than the budget is returned unchanged as one chunk. -/
def chunkTextForProcessing (text : List Char) (maxTokens : Nat) : List (List Char) :=
  let maxChars := maxTokens
  if text.length ≤ maxChars then [text]
  else chunkLoop maxChars (splitLines text) [] []

/-- JS `Math.round (num/den)` for non-negative exact rational `num/den`
(`den > 0`): round half up, computed as `⌊num/den + 1/2⌋ = (2·num+den)/(2·den)`
in natural division.  The source's floating-point `Math.round(75 + (i/n)*c)`
is modelled exactly as `75 + roundHalfUp (c*i) n`. -/
def roundHalfUp (num den : Nat) : Nat := (2 * num + den) / (2 * den)

/-- The non-whitespace characters of a string, in order. -/
def nonWs (l : List Char) : List Char := l.filter (fun c => !isWs c)

/-- Model of the JS error thrown by a failed external call.
`isRateLimit` models `error.message.includes("Too Many Requests")`;
`errorText` models the `errorText`/`responseText` payload kept in
`lastErrorText` for `parseRetryDelay`. -/
structure CallError where
  isRateLimit : Bool
  errorText : List Char
deriving DecidableEq

/-- `retryWithBackoff`, inner attempt loop (src/unnamed/part_002
lines 137–197; identical copy in part_003 lines 74–134).  `fn n` is the
outcome of the `n`-th invocation of the wrapped thunk (`Except.error`
models a thrown error).  `attempt` is the loop counter and
`left = maxRetries - attempt` the remaining retries (`attempt = maxRetries`
iff `left = 0`).  `parseDelay` abstracts `parseRetryDelay` applied to the
recorded error text (it returns 0 when no service-suggested delay can be
parsed).  `hasHook` models `db && documentId && stepName` all truthy; when
true, each retry iteration first reports its computed wait time through
`updateDocumentStatus` before sleeping — the returned list collects those
reported delays, i.e. the `onRetry` status-update invocations, in order.
The delay before retry number `attempt+1` is the service-suggested value
when positive, otherwise `baseDelay * 2 ^ ((attempt+1) - 1)`. -/
def retryGo (fn : Nat → Except CallError α) (parseDelay : List Char → Nat)
    (baseDelay : Nat) (hasHook : Bool) :
    Nat → Nat → Except CallError α × List Nat
  | attempt, left =>
    match fn attempt with
    | .ok a => (.ok a, [])
    | .error e =>
      match left with
      | 0 => (.error e, [])
      | left' + 1 =>
        if e.isRateLimit then
          let apiRetryDelay := parseDelay e.errorText
          let delayMs := if 0 < apiRetryDelay then apiRetryDelay
            else baseDelay * 2 ^ attempt
          let r := retryGo fn parseDelay baseDelay hasHook (attempt + 1) left'
          (r.1, (if hasHook then [delayMs] else []) ++ r.2)
        else (.error e, [])

/-- `retryWithBackoff` (src/unnamed/part_002 lines 124–200): run the
attempt loop from attempt 0 with `maxRetries` retries remaining.  Returns
the final outcome together with the list of delays reported through the
status-update hook. -/
def retryWithBackoff (fn : Nat → Except CallError α)
    (parseDelay : List Char → Nat) (maxRetries baseDelay : Nat)
    (hasHook : Bool) : Except CallError α × List Nat :=
  retryGo fn parseDelay baseDelay hasHook 0 maxRetries

/-- The thunk used by the C5 witness: two rate-limited failures, then
success with value 42. -/
def rlThenOk : Nat → Except CallError Nat :=
  fun n => if n < 2 then .error ⟨true, []⟩ else .ok 42

/-- A `Section` descriptor of the outline JSON (src/unnamed/part_003
lines 5–11).  `start_text`/`end_text` are the optional anchor hints. -/
structure SectionD where
  title : List Char
  start_page : Nat
  end_page : Nat
  start_text : Option (List Char)
  end_text : Option (List Char)
deriving DecidableEq

/-- JS `String.prototype.toLowerCase`, character-wise. -/
def lower (l : List Char) : List Char := l.map Char.toLower

/-- JS `hay.includes(sub)`: substring containment (true at the empty
needle, as in JS). -/
def containsSub (hay sub : List Char) : Bool :=
  sub.isPrefixOf hay ||
    match hay with
    | [] => false
    | _ :: t => containsSub t sub

/-- The fixed part of the page-marker pattern before the digits. -/
def markerHead : List Char := "=== PAGE ".data

/-- The fixed part of the page-marker pattern after the digits. -/
def markerTail : List Char := " ===".data

/-- `parseInt` on a non-empty run of decimal digits. -/
def digitsToNat (ds : List Char) : Nat :=
  ds.foldl (fun n c => n * 10 + (c.toNat - '0'.toNat)) 0

/-- Match the regex `=== PAGE (\d+) ===` at the start of `l`.  The greedy
`\d+` takes the maximal digit run: no shorter run can be followed by the
space that `" ==="` requires, so maximal-run matching is exact.  Returns
`parseInt` of the captured digits. -/
def matchMarkerAt (l : List Char) : Option Nat :=
  if markerHead.isPrefixOf l then
    let rest := l.drop 9
    let ds := rest.takeWhile Char.isDigit
    if ds ≠ [] ∧ markerTail.isPrefixOf (rest.dropWhile Char.isDigit) then
      some (digitsToNat ds)
    else none
  else none

/-- JS `line.match(/=== PAGE (\d+) ===/)` followed by
`parseInt(match[1])`: an unanchored search — scan left to right for the
first position where the pattern matches (part_003 lines 268/317). -/
def pageMarker : List Char → Option Nat
  | [] => none
  | c :: t =>
    match matchMarkerAt (c :: t) with
    | some n => some n
    | none => pageMarker t

/-- Truthiness-guarded containment check on an optional hint string:
JS `(hint && line.toLowerCase().includes(hint.toLowerCase()))` — an
absent or empty hint is falsy. -/
def optAnchor (hint : Option (List Char)) (line : List Char) : Bool :=
  match hint with
  | none => false
  | some st => if st = [] then false else containsSub (lower line) (lower st)

/-- Anchor match of a line against a section descriptor (part_003
lines 277–281 / 293–297): the lowercased line contains the lowercased
title, or contains the truthy `start_text` hint. -/
def anchorMatch (sec : SectionD) (line : List Char) : Bool :=
  containsSub (lower line) (lower sec.title) || optAnchor sec.start_text line

/-- Anchor match against the optional next section (part_003
lines 292–297); absent next section is falsy. -/
def nextAnchorMatch (next : Option SectionD) (line : List Char) : Bool :=
  match next with
  | none => false
  | some ns => anchorMatch ns line

/-- Primary (anchor-based) pass of `extractSectionContent` (part_003
lines 266–303): page-marker lines update `currentPage` and are skipped;
capture starts at a line anchor-matching the section once
`currentPage ≥ start_page`; while capturing, the loop breaks when
`currentPage > end_page` or a line anchor-matches the next section, and
otherwise appends `line + "\n"`. -/
def extractGo (sec : SectionD) (next : Option SectionD) :
    List (List Char) → List Char → Bool → Nat → List Char
  | [], content, _, _ => content
  | line :: rest, content, capturing, currentPage =>
    match pageMarker line with
    | some n => extractGo sec next rest content capturing n
    | none =>
      let c2 :=
        if capturing = false ∧ sec.start_page ≤ currentPage then
          (if anchorMatch sec line then true else capturing)
        else capturing
      if c2 = true then
        if sec.end_page < currentPage then content
        else if nextAnchorMatch next line then content
        else extractGo sec next rest (content ++ line ++ ['\n']) c2 currentPage
      else extractGo sec next rest content c2 currentPage

/-- Fallback (page-number-only) pass of `extractSectionContent` (part_003
lines 315–335): same loop but capture starts at any line once
`currentPage ≥ start_page`, ignoring anchors and the next section. -/
def fallbackGo (sec : SectionD) :
    List (List Char) → List Char → Bool → Nat → List Char
  | [], content, _, _ => content
  | line :: rest, content, capturing, currentPage =>
    match pageMarker line with
    | some n => fallbackGo sec rest content capturing n
    | none =>
      let c2 :=
        if capturing = false ∧ sec.start_page ≤ currentPage then true
        else capturing
      if c2 = true then
        if sec.end_page < currentPage then content
        else fallbackGo sec rest (content ++ line ++ ['\n']) c2 currentPage
      else fallbackGo sec rest content c2 currentPage

/-- `extractSectionContent` (src/unnamed/part_003 lines 256–339): run the
anchor-based pass from page 1; if its trimmed result is empty, re-run with
the page-number-only fallback; the returned content is trimmed. -/
def extractSectionContent (documentText : List Char) (sec : SectionD)
    (next : Option SectionD) : List Char :=
  let lines := splitLines documentText
  let primary := extractGo sec next lines [] false 1
  if trim primary = [] then trim (fallbackGo sec lines [] false 1)
  else trim primary

/-- Decimal digit characters of `n`, most significant first (fuel-based so
that it reduces in the kernel). -/
def natDigitsAux : Nat → Nat → List Char
  | 0, _ => []
  | fuel + 1, n =>
    if n < 10 then [Nat.digitChar n]
    else natDigitsAux fuel (n / 10) ++ [Nat.digitChar (n % 10)]

/-- Decimal digits of `n`. -/
def natDigits (n : Nat) : List Char := natDigitsAux (n + 1) n

/-- The page-marker sentinel line `=== PAGE n ===`. -/
def markerLine (n : Nat) : List Char := markerHead ++ (natDigits n ++ markerTail)

/-- The concrete document text used by the extraction witnesses. -/
def c6Text : List Char :=
  "=== PAGE 1 ===\nintro\n=== PAGE 2 ===\npre\nX heading\nbody\n=== PAGE 3 ===\nthree\n=== PAGE 4 ===\nfour\n=== PAGE 5 ===\nfive".data

/-- The line sequence of a well-formed paged document: pages numbered
`k, k+1, ...`, each introduced by its `=== PAGE n ===` sentinel line and
followed by its content lines. -/
def pagedLinesFrom : Nat → List (List (List Char)) → List (List Char)
  | _, [] => []
  | k, pg :: rest => markerLine k :: (pg ++ pagedLinesFrom (k + 1) rest)

/-- The content (joined with newlines, as the extraction loop builds it)
of the pages of a paged document numbered within
`[sec.start_page, sec.end_page]`. -/
def sliceNL (sec : SectionD) : Nat → List (List (List Char)) → List Char
  | _, [] => []
  | k, pg :: rest =>
    (if sec.start_page ≤ k ∧ k ≤ sec.end_page then appendNL pg else []) ++
      sliceNL sec (k + 1) rest

/-- Document lifecycle status (schema enum, src/unnamed/part_000 line 7). -/
inductive DocStatus
  | processing
  | completed
  | failed
  | awaiting_outline_approval
  | awaiting_summary_approval
deriving DecidableEq

/-- The fields of the persisted Document record that the continuation
action reads: id, current status, and the parsed outline
(`JSON.parse(document.tableOfContents || "[]")`, modelled parsed). -/
structure Doc where
  id : Nat
  status : DocStatus
  tableOfContents : List SectionD
deriving DecidableEq

/-- A persisted Section row (schema, src/unnamed/part_000 lines 25–35) as
inserted by the continuation loop (part_003 lines 538–546); `pdfPath` is
always null there and is omitted. -/
structure SectionRow where
  documentId : Nat
  title : List Char
  summary : List Char
  startPage : Nat
  endPage : Nat
  sectionNumber : Nat
deriving DecidableEq

/-- One durable Document/Section write performed by the continuation
action.  `statusUpd` is `updateDocumentStatus` (writes `currentStep` and
`statusMessage`, and `progress` only when supplied); `approve` is the
status:=processing / outlineApprovedAt write (part_003 lines 408–414);
`completeUpd` is the final update, which sets status completed and
progress 100 (lines 603–612). -/
inductive ContMut
  | approve
  | statusUpd (progress : Option Nat)
  | insertRow (r : SectionRow)
  | completeUpd
deriving DecidableEq

/-- Client-visible rejection of a continuation request: missing required
parameters (400), document not found (404), or document not in the
`awaiting_outline_approval` state (400). -/
inductive ContErr
  | missingParams
  | notFound
  | notAwaiting
deriving DecidableEq

/-- The writes of one iteration of the summarization loop (part_003
lines 442–570) for section index `i` of `n`: the start-of-section and
before-AI-call status writes both carry `Math.round(75 + (i/n)*25)`, the
PDF-stage write carries `Math.round(75 + ((i+1)/n)*20)`, then the Section
insert (`sectionNumber = i+1`, pages copied from the descriptor), then
the completion write `Math.round(75 + ((i+1)/n)*25)`. -/
def sectionBlock (docId n : Nat) (summaries : Nat → List Char)
    (i : Nat) (s : SectionD) : List ContMut :=
  [ .statusUpd (some (75 + roundHalfUp (25 * i) n)),
    .statusUpd (some (75 + roundHalfUp (25 * i) n)),
    .statusUpd (some (75 + roundHalfUp (20 * (i + 1)) n)),
    .insertRow ⟨docId, s.title, summaries i, s.start_page, s.end_page, i + 1⟩,
    .statusUpd (some (75 + roundHalfUp (25 * (i + 1)) n)) ]

/-- The continuation `action` (src/unnamed/part_003 lines 341–675),
restricted to runs where every external call succeeds (the summary texts
are abstracted by `summaries`).  Returns the response outcome
(`ok` carries the processed-section count) and the ordered list of
durable writes.  Order of checks as in the source: missing parameters,
document lookup, status precondition; then approve, the `progress 75`
write, the per-section loop over
`updatedTableOfContents || JSON.parse(document.tableOfContents)`, and
the 95 / 98 / completed(100) finalization writes. -/
def continueAction (paramsOk : Bool) (doc? : Option Doc)
    (updatedTableOfContents : Option (List SectionD))
    (summaries : Nat → List Char) : Except ContErr Nat × List ContMut :=
  if paramsOk = false then (.error .missingParams, [])
  else
    match doc? with
    | none => (.error .notFound, [])
    | some doc =>
      if doc.status ≠ .awaiting_outline_approval then (.error .notAwaiting, [])
      else
        let sections := updatedTableOfContents.getD doc.tableOfContents
        let n := sections.length
        (.ok n,
          [.approve, .statusUpd (some 75)] ++
            sections.enum.flatMap
              (fun p => sectionBlock doc.id n summaries p.1 p.2) ++
            [.statusUpd (some 95), .statusUpd (some 98), .completeUpd])

/-- The value a write assigns to the Document's `progress` field, if any. -/
def mutProgress : ContMut → Option Nat
  | .statusUpd p => p
  | .completeUpd => some 100
  | _ => none

/-- The Section rows inserted by a write sequence, in order. -/
def insertedRows (muts : List ContMut) : List SectionRow :=
  muts.filterMap (fun m =>
    match m with
    | .insertRow r => some r
    | _ => none)

/-- Progress values written by the process-stage `action`
(src/unnamed/part_002 lines 499–875): 25 (initialize), 30 (text
extracted), 35 (chunking), 45 (structure analysis — skipped when a custom
outline is supplied), 60 (analysis complete), 65 (generating TOC), then
the TOC save and the awaiting-approval save both write 65.  Document
writes that do not set `progress` leave the field untouched and are
omitted; none of the per-chunk or retry writes set `progress`. -/
def processProgressWrites (custom : Bool) : List Nat :=
  [25, 30, 35] ++ (if custom then [] else [45]) ++ [60, 65, 65, 65]

/-- The sequence of values written to the Document's `progress` field
over a full successful run: the process stage followed by the
continuation stage. -/
def fullRunProgressWrites (custom : Bool) (doc : Doc)
    (updatedTableOfContents : Option (List SectionD))
    (summaries : Nat → List Char) : List Nat :=
  processProgressWrites custom ++
    (continueAction true (some doc) updatedTableOfContents
        summaries).2.filterMap mutProgress

/-- The four progress values written during one summarization-loop
iteration (projection of `sectionBlock`). -/
def blockP (n i : Nat) : List Nat :=
  [75 + roundHalfUp (25 * i) n, 75 + roundHalfUp (25 * i) n,
    75 + roundHalfUp (20 * (i + 1)) n, 75 + roundHalfUp (25 * (i + 1)) n]

/-- The continuation stage's progress trace as a function of the section
count alone. -/
def contTraceN (n : Nat) : List Nat :=
  75 :: ((List.range n).flatMap (blockP n) ++ [95, 98, 100])

/-- Executable non-decreasing check: every element is at most its
successor. -/
def nonDecreasing : List Nat → Bool
  | [] => true
  | [_] => true
  | a :: b :: rest => decide (a ≤ b) && nonDecreasing (b :: rest)

/-! ## Sanity checks, lemmas and claim theorems -/

example : chunkTextForProcessing ("ab".data) 5 = ["ab".data] := by decide

example : chunkTextForProcessing ("ab\ncd".data) 2 = ["ab".data, "cd".data] := by decide

example : chunkTextForProcessing ("  ".data) 1 = [] := by decide

example : trim ("  a b ".data) = "a b".data := by decide

example : splitLines ("a\n\nb".data) = ["a".data, [], "b".data] := by decide

example : 75 + roundHalfUp (25 * 1) 2 = 88 := by decide

example : 75 + roundHalfUp (20 * 6) 10 = 87 := by decide

lemma nonWs_append (a b : List Char) : nonWs (a ++ b) = nonWs a ++ nonWs b :=
  List.filter_append ..

lemma nonWs_dropWhile (l : List Char) : nonWs (l.dropWhile isWs) = nonWs l := by
  conv_rhs => rw [← List.takeWhile_append_dropWhile isWs l]
  rw [nonWs_append]
  have h : nonWs (l.takeWhile isWs) = [] := by
    refine List.filter_eq_nil_iff.mpr (fun a ha => ?_)
    have := List.mem_takeWhile_imp ha
    simp [this]
  rw [h, List.nil_append]

lemma nonWs_reverse (l : List Char) : nonWs l.reverse = (nonWs l).reverse :=
  List.filter_reverse ..

lemma nonWs_trim (l : List Char) : nonWs (trim l) = nonWs l := by
  unfold trim
  rw [nonWs_reverse, nonWs_dropWhile, nonWs_reverse, List.reverse_reverse,
    nonWs_dropWhile]

lemma trim_ne_nil (l : List Char) (h : nonWs l ≠ []) : trim l ≠ [] := by
  intro hn
  exact h (by rw [← nonWs_trim, hn]; rfl)

lemma splitLines_ne_nil (l : List Char) : splitLines l ≠ [] := by
  cases l with
  | nil => simp [splitLines]
  | cons c rest =>
    simp only [splitLines]
    split
    · simp
    · cases h : splitLines rest <;> simp

lemma flatten_splitLines (l : List Char) :
    (splitLines l).flatten = l.filter (fun c => !(c == '\n')) := by
  induction l with
  | nil => simp [splitLines]
  | cons c rest ih =>
    by_cases hc : c = '\n'
    · subst hc
      simp [splitLines, ih]
    · simp only [splitLines, if_neg hc]
      cases h : splitLines rest with
      | nil => exact absurd h (splitLines_ne_nil rest)
      | cons l' ls =>
        rw [h] at ih
        simp only [List.flatten_cons] at ih ⊢
        simp [List.filter_cons, hc, ← ih]

lemma nonWs_flatten_splitLines (l : List Char) :
    nonWs (splitLines l).flatten = nonWs l := by
  rw [flatten_splitLines]
  unfold nonWs
  rw [List.filter_filter]
  refine List.filter_congr (fun c _ => ?_)
  by_cases hc : c = '\n'
  · subst hc; simp [isWs]
  · simp [hc]

lemma nonWs_newline : nonWs ['\n'] = [] := by decide

lemma nonWs_cons_newline (l : List Char) : nonWs ('\n' :: l) = nonWs l := by
  have h : (!isWs '\n') = false := by decide
  simp [nonWs, List.filter_cons, h]

lemma chunkLoop_nonWs (maxChars : Nat) (ls : List (List Char)) :
    ∀ chunks cur,
      nonWs (chunkLoop maxChars ls chunks cur).flatten =
        nonWs (chunks.flatten ++ cur ++ ls.flatten) := by
  induction ls with
  | nil =>
    intro chunks cur
    simp only [chunkLoop]
    split
    · simp [List.flatten_append, nonWs_append, nonWs_trim]
    · rename_i hcur
      have h0 : nonWs cur = [] := by
        rw [← nonWs_trim]
        simp only [not_not] at hcur
        rw [hcur]; rfl
      simp [List.flatten_append, nonWs_append, h0]
  | cons line rest ih =>
    intro chunks cur
    simp only [chunkLoop]
    split
    · rw [ih]
      simp [List.flatten_append, nonWs_append, nonWs_trim, nonWs_newline,
        nonWs_cons_newline]
    · rw [ih]
      simp [List.flatten_append, nonWs_append, nonWs_newline, nonWs_cons_newline]

/-- Chunking preserves the sequence of non-whitespace characters.
Shared helper used by the chunking claims. -/
lemma chunk_nonWs_flatten (text : List Char) (maxTokens : Nat) :
    nonWs (chunkTextForProcessing text maxTokens).flatten = nonWs text := by
  rw [show chunkTextForProcessing text maxTokens =
      if text.length ≤ maxTokens then [text]
      else chunkLoop maxTokens (splitLines text) [] [] from rfl]
  split
  · simp
  · rw [chunkLoop_nonWs]
    simp [nonWs_flatten_splitLines]

/-- C1 counterexample: chunking is not lossless.  For the text `"ab\ncd"`
with budget 2, the chunks are `["ab", "cd"]` (the buffer is trimmed and the
newline at the chunk boundary is dropped), so their concatenation `"abcd"`
differs from the original text. -/
theorem c1_counterexample :
    (chunkTextForProcessing ("ab\ncd".data) 2).flatten ≠ "ab\ncd".data := by
  decide

/-- C1 (amended): chunking is lossless up to whitespace.  For every text
`T` and budget `B`, concatenating the chunks of `chunkTextForProcessing T B`
yields a string with exactly the same sequence of non-whitespace characters
as `T`; whitespace can be lost because each flushed chunk is trimmed and the
newline at each chunk boundary is not restored by plain concatenation. -/
theorem c1_chunking_lossless_up_to_whitespace (text : List Char) (maxTokens : Nat) :
    nonWs (chunkTextForProcessing text maxTokens).flatten = nonWs text :=
  chunk_nonWs_flatten text maxTokens

/-- C8 counterexample: the chunking engine can return an empty sequence.
For the all-whitespace text `"  "` (length 2) with budget 1, the single
line's buffer trims to the empty string, so no chunk is ever pushed and the
result is `[]` — contradicting both "at least one chunk" and "every chunk
non-empty" (the empty text likewise yields the single empty chunk `[""]`). -/
theorem c8_counterexample : chunkTextForProcessing ("  ".data) 1 = [] := by
  decide

/-- C8 (amended): the chunking engine returns at least one chunk whenever
the text contains a non-whitespace character or fits in the budget; for
all-whitespace texts longer than the budget the result can be empty, and
individual chunks can be empty strings (e.g. the single chunk for the
empty text). -/
theorem c8_at_least_one_chunk (text : List Char) (maxTokens : Nat)
    (h : nonWs text ≠ [] ∨ text.length ≤ maxTokens) :
    chunkTextForProcessing text maxTokens ≠ [] := by
  rcases h with h | h
  · intro hnil
    apply h
    have := chunk_nonWs_flatten text maxTokens
    rw [hnil] at this
    simpa using this.symm
  · rw [show chunkTextForProcessing text maxTokens =
        if text.length ≤ maxTokens then [text]
        else chunkLoop maxTokens (splitLines text) [] [] from rfl]
    rw [if_pos h]
    simp

/-- Witness for C8 (amended) at the concrete text `"ab\ncd"` with budget 2. -/
theorem c8_at_least_one_chunk_witness :
    (nonWs ("ab\ncd".data) ≠ [] ∨ ("ab\ncd".data).length ≤ 2) ∧
      chunkTextForProcessing ("ab\ncd".data) 2 ≠ [] :=
  ⟨Or.inl (by decide), c8_at_least_one_chunk _ _ (Or.inl (by decide))⟩

example :
    retryWithBackoff (fun n => if n < 2 then .error ⟨true, []⟩ else .ok 42)
      (fun _ => 0) 3 1000 true = (.ok 42, [1000, 2000]) := rfl

example :
    retryWithBackoff (fun _ => (.error ⟨true, []⟩ : Except CallError Nat))
      (fun _ => 0) 2 1000 true = (.error ⟨true, []⟩, [1000, 2000]) := rfl

/-- C4: a failure that is not classified as a rate-limit error propagates
immediately: the controller returns that error after the first attempt and
the status-update hook (`onRetry`) is never invoked, for every retry
budget, base delay, parsed-delay function and hook configuration. -/
theorem c4_non_rate_limit_fails_fast {α : Type} (fn : Nat → Except CallError α)
    (parseDelay : List Char → Nat) (maxRetries baseDelay : Nat)
    (hasHook : Bool) (e : CallError)
    (hfail : fn 0 = .error e) (hrl : e.isRateLimit = false) :
    retryWithBackoff fn parseDelay maxRetries baseDelay hasHook =
      (.error e, []) := by
  unfold retryWithBackoff
  cases maxRetries <;> simp [retryGo, hfail, hrl]

/-- Witness for C4: a thunk that always throws a non-rate-limit error. -/
theorem c4_non_rate_limit_fails_fast_witness :
    ((fun _ : Nat => (.error ⟨false, []⟩ : Except CallError Nat)) 0 =
        .error ⟨false, []⟩ ∧ (false = false)) ∧
      retryWithBackoff (fun _ : Nat => (.error ⟨false, []⟩ : Except CallError Nat))
        (fun _ => 0) 3 1000 true = (.error ⟨false, []⟩, []) :=
  ⟨⟨rfl, rfl⟩, c4_non_rate_limit_fails_fast _ _ _ _ _ _ rfl rfl⟩

lemma retryGo_rl_succeeds {α : Type} (fn : Nat → Except CallError α)
    (parseDelay : List Char → Nat) (baseDelay : Nat) (k : Nat) (a : α)
    (hsucc : fn k = .ok a) :
    ∀ d attempt left, attempt + d = k → d ≤ left →
      (∀ n, attempt ≤ n → n < k → ∃ e, fn n = .error e ∧ e.isRateLimit = true) →
      (retryGo fn parseDelay baseDelay true attempt left).1 = .ok a ∧
        (retryGo fn parseDelay baseDelay true attempt left).2.length = d := by
  intro d
  induction d with
  | zero =>
    intro attempt left hak _ _
    have hk : attempt = k := by omega
    subst hk
    simp [retryGo, hsucc]
  | succ d ih =>
    intro attempt left hak hle hfail
    obtain ⟨e, he, herl⟩ := hfail attempt (le_refl _) (by omega)
    obtain ⟨left', rfl⟩ : ∃ left', left = left' + 1 :=
      ⟨left - 1, by omega⟩
    have ihr := ih (attempt + 1) left' (by omega) (by omega)
      (fun n hn hnk => hfail n (by omega) hnk)
    have hstep :
        retryGo fn parseDelay baseDelay true attempt (left' + 1) =
          ((retryGo fn parseDelay baseDelay true (attempt + 1) left').1,
            (if 0 < parseDelay e.errorText then parseDelay e.errorText
              else baseDelay * 2 ^ attempt) ::
              (retryGo fn parseDelay baseDelay true (attempt + 1) left').2) := by
      rw [retryGo, he]
      simp [herl]
    rw [hstep]
    exact ⟨ihr.1, by simp [ihr.2]⟩

/-- C5: if the wrapped thunk fails with rate-limit-classified errors on
exactly the first `k` attempts (`k < maxRetries`) and succeeds on attempt
`k`, the controller returns the success value and the status-update hook
(`onRetry`) is invoked exactly `k` times. -/
theorem c5_rate_limit_retries_then_success {α : Type}
    (fn : Nat → Except CallError α) (parseDelay : List Char → Nat)
    (maxRetries baseDelay k : Nat) (a : α)
    (hk : k < maxRetries)
    (hfail : ∀ n < k, ∃ e, fn n = .error e ∧ e.isRateLimit = true)
    (hsucc : fn k = .ok a) :
    (retryWithBackoff fn parseDelay maxRetries baseDelay true).1 = .ok a ∧
      (retryWithBackoff fn parseDelay maxRetries baseDelay true).2.length = k :=
  retryGo_rl_succeeds fn parseDelay baseDelay k a hsucc k 0 maxRetries
    (by omega) (by omega) (fun n _ hnk => hfail n hnk)

/-- Witness for C5 at `k = 2`, `maxRetries = 3`. -/
theorem c5_rate_limit_retries_then_success_witness :
    (2 < 3 ∧ (∀ n < 2, ∃ e, rlThenOk n = .error e ∧ e.isRateLimit = true) ∧
        rlThenOk 2 = .ok 42) ∧
      (retryWithBackoff rlThenOk (fun _ => 0) 3 1000 true).1 = .ok 42 ∧
        (retryWithBackoff rlThenOk (fun _ => 0) 3 1000 true).2.length = 2 :=
  ⟨⟨by decide, fun n hn => ⟨⟨true, []⟩, by simp [rlThenOk, hn]⟩, rfl⟩,
    c5_rate_limit_retries_then_success rlThenOk (fun _ => 0) 3 1000 2 42
      (by decide) (fun n hn => ⟨⟨true, []⟩, by simp [rlThenOk, hn]⟩) rfl⟩

example : markerLine 3 = "=== PAGE 3 ===".data := by decide

example : pageMarker (markerLine 3) = some 3 := by decide

example : pageMarker ("intro text".data) = none := by decide

example : pageMarker ("x === PAGE 12 === y".data) = some 12 := by decide

example :
    extractSectionContent
      ("=== PAGE 1 ===\nintro\n=== PAGE 2 ===\npre\nX heading\nbody\n=== PAGE 3 ===\nthree\n=== PAGE 4 ===\nfour\n=== PAGE 5 ===\nfive".data)
      ⟨"X".data, 2, 4, none, none⟩ none =
      "X heading\nbody\nthree\nfour".data := by decide

example :
    extractSectionContent
      ("=== PAGE 1 ===\nintro\n=== PAGE 2 ===\npre\nX heading\nbody\n=== PAGE 3 ===\nthree\n=== PAGE 4 ===\nfour\n=== PAGE 5 ===\nfive".data)
      ⟨"Q".data, 2, 4, none, none⟩ none =
      "pre\nX heading\nbody\nthree\nfour".data := by decide

lemma isPrefixOf_append_self (p x : List Char) : p.isPrefixOf (p ++ x) = true := by
  induction p with
  | nil => simp [List.isPrefixOf]
  | cons c cs ih => simpa [List.isPrefixOf] using ih

lemma digitChar_isDigit (d : Nat) (hd : d < 10) :
    (Nat.digitChar d).isDigit = true := by
  interval_cases d <;> decide

lemma digitChar_val (d : Nat) (hd : d < 10) :
    (Nat.digitChar d).toNat - '0'.toNat = d := by
  interval_cases d <;> decide

lemma digitsToNat_append_singleton (xs : List Char) (c : Char) :
    digitsToNat (xs ++ [c]) = digitsToNat xs * 10 + (c.toNat - '0'.toNat) := by
  unfold digitsToNat
  rw [List.foldl_append]
  rfl

lemma natDigitsAux_spec (fuel : Nat) :
    ∀ n, n < fuel →
      natDigitsAux fuel n ≠ [] ∧ (∀ c ∈ natDigitsAux fuel n, c.isDigit = true) ∧
        digitsToNat (natDigitsAux fuel n) = n := by
  induction fuel with
  | zero => intro n hn; omega
  | succ fuel ih =>
    intro n hn
    by_cases h10 : n < 10
    · simp only [natDigitsAux, if_pos h10]
      refine ⟨by simp, ?_, ?_⟩
      · intro c hc
        simp only [List.mem_singleton] at hc
        subst hc
        exact digitChar_isDigit n h10
      · show digitsToNat ([] ++ [Nat.digitChar n]) = n
        rw [digitsToNat_append_singleton]
        have : digitsToNat [] = 0 := rfl
        rw [this, digitChar_val n h10]
        ring
    · have hdiv : n / 10 < fuel := by
        have h1 : n / 10 < n := Nat.div_lt_self (by omega) (by omega)
        omega
      obtain ⟨hne, hdig, hval⟩ := ih (n / 10) hdiv
      simp only [natDigitsAux, if_neg h10]
      refine ⟨by simp, ?_, ?_⟩
      · intro c hc
        rcases List.mem_append.mp hc with hc | hc
        · exact hdig c hc
        · simp only [List.mem_singleton] at hc
          subst hc
          exact digitChar_isDigit _ (Nat.mod_lt _ (by omega))
      · rw [digitsToNat_append_singleton, hval,
          digitChar_val _ (Nat.mod_lt _ (by omega))]
        omega

lemma natDigits_spec (n : Nat) :
    natDigits n ≠ [] ∧ (∀ c ∈ natDigits n, c.isDigit = true) ∧
      digitsToNat (natDigits n) = n :=
  natDigitsAux_spec (n + 1) n (by omega)

lemma takeWhile_digits_markerTail (x : List Char)
    (hx : ∀ c ∈ x, c.isDigit = true) :
    (x ++ markerTail).takeWhile Char.isDigit = x ∧
      (x ++ markerTail).dropWhile Char.isDigit = markerTail := by
  induction x with
  | nil =>
    constructor
    · rfl
    · rfl
  | cons c cs ih =>
    have hc : c.isDigit = true := hx c (List.mem_cons_self ..)
    obtain ⟨h1, h2⟩ := ih (fun d hd => hx d (List.mem_cons_of_mem _ hd))
    constructor
    · simp [List.takeWhile_cons, hc, h1]
    · simp [List.dropWhile_cons, hc, h2]

lemma matchMarkerAt_markerLine (n : Nat) :
    matchMarkerAt (markerLine n) = some n := by
  obtain ⟨hne, hdig, hval⟩ := natDigits_spec n
  unfold matchMarkerAt markerLine
  rw [if_pos (isPrefixOf_append_self ..)]
  have hdrop : (markerHead ++ (natDigits n ++ markerTail)).drop 9 =
      natDigits n ++ markerTail := by
    have h9 : markerHead.length = 9 := rfl
    rw [← h9, List.drop_left]
  rw [hdrop]
  obtain ⟨ht, hd⟩ := takeWhile_digits_markerTail (natDigits n) hdig
  simp only [ht, hd]
  rw [if_pos ⟨hne, by
    have := isPrefixOf_append_self markerTail []
    simpa using this⟩]
  rw [hval]

lemma markerLine_ne_nil (n : Nat) : markerLine n ≠ [] := by
  unfold markerLine markerHead
  intro h
  simp at h

lemma pageMarker_of_matchMarkerAt (l : List Char) (n : Nat)
    (h : matchMarkerAt l = some n) : pageMarker l = some n := by
  cases l with
  | nil => simp [matchMarkerAt, markerHead, List.isPrefixOf] at h
  | cons c t => simp [pageMarker, h]

lemma pageMarker_markerLine (n : Nat) : pageMarker (markerLine n) = some n :=
  pageMarker_of_matchMarkerAt _ _ (matchMarkerAt_markerLine n)

lemma extractGo_marker (sec : SectionD) (next : Option SectionD)
    (line : List Char) (n : Nat) (rest : List (List Char))
    (content : List Char) (capturing : Bool) (p : Nat)
    (h : pageMarker line = some n) :
    extractGo sec next (line :: rest) content capturing p =
      extractGo sec next rest content capturing n := by
  cases line with
  | nil => simp [pageMarker] at h
  | cons c t => simp only [extractGo, h]

lemma fallbackGo_marker (sec : SectionD) (line : List Char) (n : Nat)
    (rest : List (List Char)) (content : List Char) (capturing : Bool) (p : Nat)
    (h : pageMarker line = some n) :
    fallbackGo sec (line :: rest) content capturing p =
      fallbackGo sec rest content capturing n := by
  cases line with
  | nil => simp [pageMarker] at h
  | cons c t => simp only [fallbackGo, h]

lemma extractGo_skip (sec : SectionD) (next : Option SectionD)
    (ls : List (List Char)) :
    ∀ rest content p,
      (∀ l ∈ ls, pageMarker l = none ∧
        (sec.start_page ≤ p → anchorMatch sec l = false)) →
      extractGo sec next (ls ++ rest) content false p =
        extractGo sec next rest content false p := by
  induction ls with
  | nil => intro rest content p _; rfl
  | cons l ls ih =>
    intro rest content p h
    obtain ⟨hm, ha⟩ := h l (List.mem_cons_self ..)
    have hrec := ih rest content p (fun x hx => h x (List.mem_cons_of_mem _ hx))
    by_cases hp : sec.start_page ≤ p
    · simp only [List.cons_append, extractGo, hm, ha hp, List.append_eq]
      simpa using hrec
    · simp only [List.cons_append, extractGo, hm, List.append_eq]
      simpa [hp] using hrec

lemma extractGo_capture (sec : SectionD) (next : Option SectionD)
    (ls : List (List Char)) :
    ∀ rest content p,
      (∀ l ∈ ls, pageMarker l = none ∧ nextAnchorMatch next l = false) →
      p ≤ sec.end_page →
      extractGo sec next (ls ++ rest) content true p =
        extractGo sec next rest (content ++ appendNL ls) true p := by
  induction ls with
  | nil => intro rest content p _ _; simp [appendNL]
  | cons l ls ih =>
    intro rest content p h hp
    obtain ⟨hm, hn⟩ := h l (List.mem_cons_self ..)
    have hnotend : ¬ sec.end_page < p := by omega
    have hrec := ih rest (content ++ l ++ ['\n']) p
      (fun x hx => h x (List.mem_cons_of_mem _ hx)) hp
    calc extractGo sec next ((l :: ls) ++ rest) content true p
        = extractGo sec next (ls ++ rest) (content ++ l ++ ['\n']) true p := by
          simp only [List.cons_append, extractGo, hm, List.append_eq]
          simp [hn, hnotend]
      _ = extractGo sec next rest (content ++ l ++ ['\n'] ++ appendNL ls) true p :=
          hrec
      _ = extractGo sec next rest (content ++ appendNL (l :: ls)) true p := by
          simp [appendNL, List.append_assoc]

lemma extractGo_trigger (sec : SectionD) (next : Option SectionD)
    (t : List Char) (rest : List (List Char)) (content : List Char) (p : Nat)
    (hm : pageMarker t = none) (hstart : sec.start_page ≤ p)
    (hend : p ≤ sec.end_page) (ha : anchorMatch sec t = true)
    (hn : nextAnchorMatch next t = false) :
    extractGo sec next (t :: rest) content false p =
      extractGo sec next rest (content ++ t ++ ['\n']) true p := by
  have hnotend : ¬ sec.end_page < p := by omega
  simp only [extractGo, hm, ha, List.append_eq]
  simp [hstart, hnotend, hn]

lemma extractGo_stop (sec : SectionD) (next : Option SectionD)
    (ls : List (List Char)) (content : List Char) (p : Nat)
    (hm : ∀ l ∈ ls, pageMarker l = none) (hp : sec.end_page < p) :
    extractGo sec next ls content true p = content := by
  cases ls with
  | nil => rfl
  | cons l ls =>
    have h := hm l (List.mem_cons_self ..)
    simp only [extractGo, h]
    simp [hp]

lemma appendNL_append (x y : List (List Char)) :
    appendNL (x ++ y) = appendNL x ++ appendNL y := by
  induction x with
  | nil => simp [appendNL]
  | cons l ls ih => simp [appendNL, ih]

lemma nonWs_appendNL_cons (t : List Char) (r : List (List Char))
    (h : nonWs t ≠ []) : nonWs (appendNL (t :: r)) ≠ [] := by
  simp only [appendNL, nonWs_append]
  intro hcontr
  rcases List.append_eq_nil.mp (by simpa using hcontr) with ⟨h1, _⟩
  exact h h1

/-- C6: anchor-based extraction brackets the section correctly.  For a
document text whose lines consist of page markers `1..5` with page
contents `p1`, `a ++ [t] ++ b`, `p3`, `p4`, `p5` (no content line itself
containing a page marker), a descriptor `{title, start_page:2, end_page:4}`
whose title occurs (case-insensitively) in line `t` of page 2 and in no
earlier line of page 2, the extracted content is exactly the lines from
`t` through the end of page 4 (trimmed): every line before the title line
and every line after the page exceeds 4 is excluded. -/
theorem c6_anchor_extraction (text title t : List Char)
    (p1 a b p3 p4 p5 : List (List Char))
    (hsplit : splitLines text =
      markerLine 1 :: (p1 ++ (markerLine 2 :: (a ++ (t :: (b ++
        (markerLine 3 :: (p3 ++ (markerLine 4 :: (p4 ++
          (markerLine 5 :: p5)))))))))))
    (hp1 : ∀ l ∈ p1, pageMarker l = none)
    (hA : ∀ l ∈ a, pageMarker l = none)
    (hT : pageMarker t = none)
    (hB : ∀ l ∈ b, pageMarker l = none)
    (h3 : ∀ l ∈ p3, pageMarker l = none)
    (h4 : ∀ l ∈ p4, pageMarker l = none)
    (h5 : ∀ l ∈ p5, pageMarker l = none)
    (htitle : containsSub (lower t) (lower title) = true)
    (hnota : ∀ l ∈ a, containsSub (lower l) (lower title) = false)
    (hnonws : nonWs t ≠ []) :
    extractSectionContent text ⟨title, 2, 4, none, none⟩ none =
      trim (appendNL (t :: (b ++ p3 ++ p4))) := by
  have hanchor_t : anchorMatch ⟨title, 2, 4, none, none⟩ t = true := by
    simp [anchorMatch, optAnchor, htitle]
  have hanchor_a : ∀ l ∈ a, anchorMatch ⟨title, 2, 4, none, none⟩ l = false := by
    intro l hl
    simp [anchorMatch, optAnchor, hnota l hl]
  have hprimary :
      extractGo ⟨title, 2, 4, none, none⟩ none (splitLines text) [] false 1 =
        appendNL (t :: (b ++ p3 ++ p4)) := by
    rw [hsplit]
    rw [extractGo_marker _ _ _ _ _ _ _ _ (pageMarker_markerLine 1)]
    rw [extractGo_skip _ _ p1 _ _ _
      (fun l hl => ⟨hp1 l hl, fun h2 => absurd h2 (by norm_num)⟩)]
    rw [extractGo_marker _ _ _ _ _ _ _ _ (pageMarker_markerLine 2)]
    rw [extractGo_skip _ _ a _ _ _
      (fun l hl => ⟨hA l hl, fun _ => hanchor_a l hl⟩)]
    rw [extractGo_trigger _ none _ _ _ _ hT (by norm_num) (by norm_num)
      hanchor_t rfl]
    rw [extractGo_capture _ none b _ _ _
      (fun l hl => ⟨hB l hl, rfl⟩) (by norm_num)]
    rw [extractGo_marker _ _ _ _ _ _ _ _ (pageMarker_markerLine 3)]
    rw [extractGo_capture _ none p3 _ _ _
      (fun l hl => ⟨h3 l hl, rfl⟩) (by norm_num)]
    rw [extractGo_marker _ _ _ _ _ _ _ _ (pageMarker_markerLine 4)]
    rw [extractGo_capture _ none p4 _ _ _
      (fun l hl => ⟨h4 l hl, rfl⟩) (by norm_num)]
    rw [extractGo_marker _ _ _ _ _ _ _ _ (pageMarker_markerLine 5)]
    rw [extractGo_stop _ _ p5 _ _ h5 (by norm_num)]
    simp [appendNL, appendNL_append, List.append_assoc]
  have htrim : trim (appendNL (t :: (b ++ p3 ++ p4))) ≠ [] :=
    trim_ne_nil _ (nonWs_appendNL_cons t _ hnonws)
  simp only [extractSectionContent]
  rw [hprimary, if_neg htrim]

/-- Witness for C6 at a concrete five-page text whose section title `X`
appears on page 2. -/
theorem c6_anchor_extraction_witness :
    extractSectionContent c6Text ⟨"X".data, 2, 4, none, none⟩ none =
      "X heading\nbody\nthree\nfour".data := by
  rw [c6_anchor_extraction c6Text ("X".data) ("X heading".data)
    ["intro".data] ["pre".data] ["body".data] ["three".data]
    ["four".data] ["five".data]
    (by decide) (by decide) (by decide) (by decide) (by decide) (by decide)
    (by decide) (by decide) (by decide) (by decide) (by decide)]
  decide

lemma sliceNL_eq_nil (sec : SectionD) (pages : List (List (List Char))) :
    ∀ k, sec.end_page < k → sliceNL sec k pages = [] := by
  induction pages with
  | nil => intro k _; rfl
  | cons pg rest ih =>
    intro k hk
    simp only [sliceNL]
    rw [if_neg (fun hcon => by omega), ih (k + 1) (by omega)]
    rfl

lemma mem_pagedLinesFrom (l : List Char) :
    ∀ (pages : List (List (List Char))) (k : Nat), l ∈ pagedLinesFrom k pages →
      (∃ j, l = markerLine j) ∨ ∃ pg ∈ pages, l ∈ pg := by
  intro pages
  induction pages with
  | nil => intro k h; simp [pagedLinesFrom] at h
  | cons pg rest ih =>
    intro k h
    simp only [pagedLinesFrom, List.mem_cons, List.mem_append] at h
    rcases h with h | h | h
    · exact Or.inl ⟨k, h⟩
    · exact Or.inr ⟨pg, List.mem_cons_self .., h⟩
    · rcases ih (k + 1) h with h | ⟨q, hq, hl⟩
      · exact Or.inl h
      · exact Or.inr ⟨q, List.mem_cons_of_mem _ hq, hl⟩

lemma fallbackGo_skip_lines (sec : SectionD) (ls : List (List Char)) :
    ∀ rest content p, (∀ l ∈ ls, pageMarker l = none) →
      ¬ sec.start_page ≤ p →
      fallbackGo sec (ls ++ rest) content false p =
        fallbackGo sec rest content false p := by
  induction ls with
  | nil => intro rest content p _ _; rfl
  | cons l ls ih =>
    intro rest content p h hp
    have hm := h l (List.mem_cons_self ..)
    simp only [List.cons_append, fallbackGo, hm, List.append_eq]
    simpa [hp] using ih rest content p (fun x hx => h x (List.mem_cons_of_mem _ hx)) hp

lemma fallbackGo_capture_lines (sec : SectionD) (ls : List (List Char)) :
    ∀ rest content p cap, (∀ l ∈ ls, pageMarker l = none) →
      sec.start_page ≤ p → p ≤ sec.end_page →
      fallbackGo sec (ls ++ rest) content cap p =
        fallbackGo sec rest (content ++ appendNL ls) (cap || !ls.isEmpty) p := by
  induction ls with
  | nil => intro rest content p cap _ _ _; simp [appendNL]
  | cons l ls ih =>
    intro rest content p cap h hstart hend
    have hm := h l (List.mem_cons_self ..)
    have hnotend : ¬ sec.end_page < p := by omega
    have hrec := ih rest (content ++ l ++ ['\n']) p true
      (fun x hx => h x (List.mem_cons_of_mem _ hx)) hstart hend
    calc fallbackGo sec ((l :: ls) ++ rest) content cap p
        = fallbackGo sec (ls ++ rest) (content ++ l ++ ['\n']) true p := by
          simp only [List.cons_append, fallbackGo, hm, List.append_eq]
          cases cap <;> simp [hstart, hnotend]
      _ = fallbackGo sec rest (content ++ l ++ ['\n'] ++ appendNL ls)
            (true || !ls.isEmpty) p := hrec
      _ = fallbackGo sec rest (content ++ appendNL (l :: ls))
            (cap || !(l :: ls).isEmpty) p := by
          simp [appendNL, List.append_assoc]

lemma fallbackGo_stop_pages (sec : SectionD)
    (hse : sec.start_page ≤ sec.end_page) :
    ∀ (pages : List (List (List Char))) k content cap p, sec.end_page < k →
      (∀ pg ∈ pages, ∀ l ∈ pg, pageMarker l = none) →
      fallbackGo sec (pagedLinesFrom k pages) content cap p = content := by
  intro pages
  induction pages with
  | nil => intro k content cap p _ _; rfl
  | cons pg rest ih =>
    intro k content cap p hk hmf
    simp only [pagedLinesFrom]
    rw [fallbackGo_marker _ _ _ _ _ _ _ (pageMarker_markerLine k)]
    cases pg with
    | nil =>
      simpa using ih (k + 1) content cap k (by omega)
        (fun q hq => hmf q (List.mem_cons_of_mem _ hq))
    | cons l pls =>
      have hm : pageMarker l = none :=
        hmf (l :: pls) (List.mem_cons_self ..) l (List.mem_cons_self ..)
      have hstart : sec.start_page ≤ k := by omega
      simp only [List.cons_append, fallbackGo, hm, List.append_eq]
      cases cap <;> simp [hstart, hk]

lemma fallbackGo_pages (sec : SectionD) (hse : sec.start_page ≤ sec.end_page) :
    ∀ (pages : List (List (List Char))) k content cap p,
      (∀ pg ∈ pages, ∀ l ∈ pg, pageMarker l = none) →
      (cap = false ∨ sec.start_page ≤ k) →
      fallbackGo sec (pagedLinesFrom k pages) content cap p =
        content ++ sliceNL sec k pages := by
  intro pages
  induction pages with
  | nil => intro k content cap p _ _; simp [pagedLinesFrom, sliceNL, fallbackGo]
  | cons pg rest ih =>
    intro k content cap p hmf hcap
    by_cases h1 : sec.end_page < k
    · rw [fallbackGo_stop_pages sec hse (pg :: rest) k content cap p h1 hmf]
      rw [sliceNL_eq_nil sec (pg :: rest) k h1, List.append_nil]
    · push_neg at h1
      have hrest : ∀ q ∈ rest, ∀ l ∈ q, pageMarker l = none :=
        fun q hq => hmf q (List.mem_cons_of_mem _ hq)
      simp only [pagedLinesFrom, sliceNL]
      rw [fallbackGo_marker _ _ _ _ _ _ _ (pageMarker_markerLine k)]
      by_cases h2 : sec.start_page ≤ k
      · rw [fallbackGo_capture_lines sec pg _ content k cap
          (hmf pg (List.mem_cons_self ..)) h2 h1]
        rw [ih (k + 1) (content ++ appendNL pg) _ k hrest (Or.inr (by omega))]
        rw [if_pos ⟨h2, h1⟩, List.append_assoc]
      · have hcapf : cap = false := hcap.resolve_right h2
        subst hcapf
        rw [fallbackGo_skip_lines sec pg _ content k
          (hmf pg (List.mem_cons_self ..)) h2]
        rw [ih (k + 1) content false k hrest (Or.inl rfl)]
        rw [if_neg (fun hcon => h2 hcon.1), List.nil_append]

lemma extractGo_no_anchor (sec : SectionD) (next : Option SectionD) :
    ∀ (lines : List (List Char)) content p,
      (∀ l ∈ lines, pageMarker l = none → anchorMatch sec l = false) →
      extractGo sec next lines content false p = content := by
  intro lines
  induction lines with
  | nil => intro content p _; rfl
  | cons l rest ih =>
    intro content p h
    cases hm : pageMarker l with
    | some n =>
      rw [extractGo_marker _ _ _ _ _ _ _ _ hm]
      exact ih content n (fun x hx => h x (List.mem_cons_of_mem _ hx))
    | none =>
      have ha := h l (List.mem_cons_self ..) hm
      simp only [extractGo, hm, ha]
      simpa using ih content p (fun x hx => h x (List.mem_cons_of_mem _ hx))

/-- C7: extraction fallback.  For any paged document text (page markers
`1..N`, content lines free of embedded markers) and any SectionDescriptor
with `start_page ≤ end_page` whose title and `start_text` anchors match no
content line, `extractSectionContent` returns the full text of pages
`start_page..end_page` inclusive (joined, trimmed) — extraction by page
numbers alone, for every optional next section. -/
theorem c7_fallback_extraction (text : List Char)
    (pages : List (List (List Char))) (sec : SectionD) (next : Option SectionD)
    (hsplit : splitLines text = pagedLinesFrom 1 pages)
    (hmf : ∀ pg ∈ pages, ∀ l ∈ pg, pageMarker l = none)
    (hanchor : ∀ pg ∈ pages, ∀ l ∈ pg, anchorMatch sec l = false)
    (hse : sec.start_page ≤ sec.end_page) :
    extractSectionContent text sec next = trim (sliceNL sec 1 pages) := by
  have hprim : extractGo sec next (splitLines text) [] false 1 = [] := by
    rw [hsplit]
    apply extractGo_no_anchor
    intro l hl hm
    rcases mem_pagedLinesFrom l pages 1 hl with ⟨j, rfl⟩ | ⟨pg, hpg, hlpg⟩
    · rw [pageMarker_markerLine] at hm
      cases hm
    · exact hanchor pg hpg l hlpg
  have hfall : fallbackGo sec (splitLines text) [] false 1 =
      sliceNL sec 1 pages := by
    rw [hsplit]
    simpa using fallbackGo_pages sec hse pages 1 [] false 1 hmf (Or.inl rfl)
  simp only [extractSectionContent]
  rw [hprim, hfall]
  rw [if_pos (show trim [] = ([] : List Char) from rfl)]

/-- Witness for C7 at a concrete three-page text and a descriptor
(pages 2–3) whose title `Q` appears nowhere. -/
theorem c7_fallback_extraction_witness :
    extractSectionContent
      ("=== PAGE 1 ===\none\n=== PAGE 2 ===\ntwo a\ntwo b\n=== PAGE 3 ===\nthree".data)
      ⟨"Q".data, 2, 3, none, none⟩ none = "two a\ntwo b\nthree".data := by
  rw [c7_fallback_extraction _
    [["one".data], ["two a".data, "two b".data], ["three".data]]
    ⟨"Q".data, 2, 3, none, none⟩ none
    (by decide) (by decide) (by decide) (by decide)]
  decide

lemma isPrefixOf_length_le (p l : List Char) (h : p.isPrefixOf l = true) :
    p.length ≤ l.length := by
  induction p generalizing l with
  | nil => simp
  | cons c cs ih =>
    cases l with
    | nil => simp [List.isPrefixOf] at h
    | cons d ds =>
      simp only [List.isPrefixOf, Bool.and_eq_true] at h
      simpa using ih ds h.2

lemma isPrefixOf_append_right (p s q : List Char) (h : p.isPrefixOf s = true) :
    p.isPrefixOf (s ++ q) = true := by
  induction p generalizing s with
  | nil => simp [List.isPrefixOf]
  | cons c cs ih =>
    cases s with
    | nil => simp [List.isPrefixOf] at h
    | cons d ds =>
      simp only [List.cons_append, List.isPrefixOf, Bool.and_eq_true] at h ⊢
      exact ⟨h.1, ih ds h.2⟩

lemma isPrefixOf_ne_nil (p l : List Char) (h : p.isPrefixOf l = true)
    (hp : p ≠ []) : l ≠ [] := by
  cases l with
  | nil =>
    cases p with
    | nil => exact absurd rfl hp
    | cons c cs => simp [List.isPrefixOf] at h
  | cons d ds => simp

lemma isPrefixOf_append_nl (p x y : List Char) (hp : '\n' ∉ p) :
    p.isPrefixOf (x ++ '\n' :: y) = p.isPrefixOf x := by
  induction p generalizing x with
  | nil => simp [List.isPrefixOf]
  | cons c cs ih =>
    cases x with
    | nil =>
      have hc : c ≠ '\n' := fun hc => hp (hc ▸ List.mem_cons_self ..)
      simp [List.isPrefixOf, hc]
    | cons d ds =>
      simp only [List.cons_append, List.isPrefixOf, List.append_eq]
      rw [ih ds (fun hm => hp (List.mem_cons_of_mem _ hm))]

lemma takeWhile_append_nl (p : Char → Bool) (hp : p '\n' = false)
    (x y : List Char) :
    (x ++ '\n' :: y).takeWhile p = x.takeWhile p := by
  induction x with
  | nil => simp [List.takeWhile_cons, hp]
  | cons c cs ih =>
    cases hc : p c <;> simp [List.takeWhile_cons, hc, ih]

lemma dropWhile_append_nl (p : Char → Bool) (hp : p '\n' = false)
    (x y : List Char) :
    (x ++ '\n' :: y).dropWhile p = x.dropWhile p ++ '\n' :: y := by
  induction x with
  | nil => simp [List.dropWhile_cons, hp]
  | cons c cs ih =>
    cases hc : p c <;> simp [List.dropWhile_cons, hc, ih]

/-- Let-free unfolding of `matchMarkerAt`. -/
lemma matchMarkerAt_eq (l : List Char) :
    matchMarkerAt l =
      if markerHead.isPrefixOf l then
        (if (l.drop 9).takeWhile Char.isDigit ≠ [] ∧
            markerTail.isPrefixOf ((l.drop 9).dropWhile Char.isDigit) = true then
          some (digitsToNat ((l.drop 9).takeWhile Char.isDigit))
        else none)
      else none := rfl

lemma matchMarkerAt_append_nl (x y : List Char) :
    matchMarkerAt (x ++ '\n' :: y) = matchMarkerAt x := by
  have hnl : '\n' ∉ markerHead := by decide
  have hnl2 : '\n' ∉ markerTail := by decide
  have hdig : Char.isDigit '\n' = false := by decide
  rw [matchMarkerAt_eq, matchMarkerAt_eq]
  rw [isPrefixOf_append_nl _ _ _ hnl]
  by_cases hpre : markerHead.isPrefixOf x = true
  · rw [if_pos hpre, if_pos hpre]
    have hx9 : 9 ≤ x.length := isPrefixOf_length_le _ _ hpre
    have hdrop : (x ++ '\n' :: y).drop 9 = x.drop 9 ++ '\n' :: y :=
      List.drop_append_of_le_length hx9
    rw [hdrop, takeWhile_append_nl _ hdig, dropWhile_append_nl _ hdig,
      isPrefixOf_append_nl _ _ _ hnl2]
  · rw [if_neg hpre, if_neg hpre]

lemma pageMarker_nil_cons (y : List Char) :
    pageMarker ('\n' :: y) = pageMarker y := by
  have hm : matchMarkerAt ('\n' :: y) = none := by
    unfold matchMarkerAt
    rw [if_neg ?_]
    show ¬ markerHead.isPrefixOf ('\n' :: y) = true
    have : markerHead = '=' :: "== PAGE ".data := rfl
    rw [this]
    simp [List.isPrefixOf]
  simp [pageMarker, hm]

lemma pageMarker_cons_none (c : Char) (t : List Char)
    (h : pageMarker (c :: t) = none) :
    matchMarkerAt (c :: t) = none ∧ pageMarker t = none := by
  cases hma : matchMarkerAt (c :: t) with
  | some n => simp [pageMarker, hma] at h
  | none => exact ⟨rfl, by simpa [pageMarker, hma] using h⟩

lemma pageMarker_append_nl (x y : List Char)
    (hx : pageMarker x = none) (hy : pageMarker y = none) :
    pageMarker (x ++ '\n' :: y) = none := by
  induction x with
  | nil => simpa [pageMarker_nil_cons] using hy
  | cons c t ih =>
    obtain ⟨hma, ht⟩ := pageMarker_cons_none c t hx
    have hma2 : matchMarkerAt ((c :: t) ++ '\n' :: y) = none := by
      rw [matchMarkerAt_append_nl]; exact hma
    rw [List.cons_append] at hma2 ⊢
    simp only [pageMarker, hma2]
    exact ih ht

lemma pageMarker_appendNL (ls : List (List Char))
    (h : ∀ l ∈ ls, pageMarker l = none) :
    pageMarker (appendNL ls) = none := by
  induction ls with
  | nil => rfl
  | cons l rest ih =>
    simp only [appendNL]
    exact pageMarker_append_nl l (appendNL rest) (h l (List.mem_cons_self ..))
      (ih (fun x hx => h x (List.mem_cons_of_mem _ hx)))

lemma pageMarker_eq_none_iff (l : List Char) :
    pageMarker l = none ↔ ∀ s, s <:+ l → matchMarkerAt s = none := by
  induction l with
  | nil =>
    constructor
    · intro _ s hs
      rw [List.suffix_nil.mp hs]
      decide
    · intro _; rfl
  | cons c t ih =>
    constructor
    · intro h s hs
      obtain ⟨hma, ht⟩ := pageMarker_cons_none c t h
      rcases List.suffix_cons_iff.mp hs with rfl | hs
      · exact hma
      · exact (ih.mp ht) s hs
    · intro h
      have hma : matchMarkerAt (c :: t) = none := h _ (List.suffix_refl _)
      simp only [pageMarker, hma]
      exact ih.mpr (fun s hs => h s (List.suffix_cons_iff.mpr (Or.inr hs)))

lemma takeWhile_dropWhile_append_of_ne_nil (p : Char → Bool)
    (x q : List Char) (h : x.dropWhile p ≠ []) :
    (x ++ q).takeWhile p = x.takeWhile p ∧
      (x ++ q).dropWhile p = x.dropWhile p ++ q := by
  induction x with
  | nil => exact absurd rfl h
  | cons c cs ih =>
    cases hc : p c with
    | true =>
      have h2 : cs.dropWhile p ≠ [] := by
        simpa [List.dropWhile_cons, hc] using h
      obtain ⟨h3, h4⟩ := ih h2
      simp [List.takeWhile_cons, List.dropWhile_cons, hc, h3, h4]
    | false =>
      simp [List.takeWhile_cons, List.dropWhile_cons, hc]

lemma matchMarkerAt_mono (s q : List Char) (n : Nat)
    (h : matchMarkerAt s = some n) :
    matchMarkerAt (s ++ q) = some n := by
  rw [matchMarkerAt_eq] at h
  rw [matchMarkerAt_eq]
  by_cases hpre : markerHead.isPrefixOf s = true
  · rw [if_pos hpre] at h
    rw [if_pos (isPrefixOf_append_right _ _ _ hpre)]
    have hx9 : 9 ≤ s.length := isPrefixOf_length_le _ _ hpre
    rw [List.drop_append_of_le_length hx9]
    by_cases hcond : (s.drop 9).takeWhile Char.isDigit ≠ [] ∧
        markerTail.isPrefixOf ((s.drop 9).dropWhile Char.isDigit) = true
    · have hdw : (s.drop 9).dropWhile Char.isDigit ≠ [] :=
        isPrefixOf_ne_nil _ _ hcond.2 (by decide)
      obtain ⟨ht, hd⟩ :=
        takeWhile_dropWhile_append_of_ne_nil Char.isDigit (s.drop 9) q hdw
      rw [ht, hd]
      rw [if_pos hcond] at h
      rw [if_pos ⟨hcond.1, isPrefixOf_append_right _ _ _ hcond.2⟩]
      exact h
    · rw [if_neg hcond] at h
      cases h
  · rw [if_neg hpre] at h
    cases h

lemma pageMarker_infix (u j : List Char) (hj : pageMarker j = none)
    (hu : u <:+: j) : pageMarker u = none := by
  rw [pageMarker_eq_none_iff] at hj ⊢
  intro s hs
  cases hma : matchMarkerAt s with
  | none => rfl
  | some n =>
    exfalso
    obtain ⟨pre, post, rfl⟩ := hu
    obtain ⟨w, rfl⟩ := hs
    have hsuf : s ++ post <:+ pre ++ (w ++ s) ++ post :=
      ⟨pre ++ w, by simp [List.append_assoc]⟩
    have hnone := hj (s ++ post) hsuf
    rw [matchMarkerAt_mono s post n hma] at hnone
    cases hnone

lemma trim_within (l : List Char) : trim l <:+: l := by
  have h1 : l.dropWhile isWs <:+ l := List.dropWhile_suffix isWs
  have h2 : (l.dropWhile isWs).reverse.dropWhile isWs <:+
      (l.dropWhile isWs).reverse := List.dropWhile_suffix isWs
  have h3 : ((l.dropWhile isWs).reverse.dropWhile isWs).reverse <+:
      l.dropWhile isWs := by
    rw [← List.reverse_suffix]
    simpa using h2
  exact List.IsInfix.trans (List.IsPrefix.isInfix h3) (List.IsSuffix.isInfix h1)

lemma extractGo_content_shape (sec : SectionD) (next : Option SectionD) :
    ∀ (lines ls : List (List Char)) (cap : Bool) (p : Nat),
      (∀ l ∈ ls, pageMarker l = none) →
      ∃ ls2, extractGo sec next lines (appendNL ls) cap p = appendNL ls2 ∧
        ∀ l ∈ ls2, pageMarker l = none := by
  intro lines
  induction lines with
  | nil => intro ls cap p h; exact ⟨ls, rfl, h⟩
  | cons l rest ih =>
    intro ls cap p h
    cases hm : pageMarker l with
    | some n =>
      rw [extractGo_marker _ _ _ _ _ _ _ _ hm]
      exact ih ls cap n h
    | none =>
      simp only [extractGo, hm, List.append_eq]
      split_ifs
      all_goals try exact ⟨ls, rfl, h⟩
      all_goals try exact ih ls _ p h
      all_goals
        rw [show appendNL ls ++ l ++ ['\n'] = appendNL (ls ++ [l]) by
          simp [appendNL_append, appendNL]]
      all_goals refine ih (ls ++ [l]) _ p ?_
      all_goals
        intro x hx
        rcases List.mem_append.mp hx with hx | hx
        · exact h x hx
        · simp only [List.mem_singleton] at hx
          subst hx
          exact hm

lemma fallbackGo_content_shape (sec : SectionD) :
    ∀ (lines ls : List (List Char)) (cap : Bool) (p : Nat),
      (∀ l ∈ ls, pageMarker l = none) →
      ∃ ls2, fallbackGo sec lines (appendNL ls) cap p = appendNL ls2 ∧
        ∀ l ∈ ls2, pageMarker l = none := by
  intro lines
  induction lines with
  | nil => intro ls cap p h; exact ⟨ls, rfl, h⟩
  | cons l rest ih =>
    intro ls cap p h
    cases hm : pageMarker l with
    | some n =>
      rw [fallbackGo_marker _ _ _ _ _ _ _ hm]
      exact ih ls cap n h
    | none =>
      simp only [fallbackGo, hm, List.append_eq]
      split_ifs
      all_goals try exact ⟨ls, rfl, h⟩
      all_goals try exact ih ls _ p h
      all_goals
        rw [show appendNL ls ++ l ++ ['\n'] = appendNL (ls ++ [l]) by
          simp [appendNL_append, appendNL]]
      all_goals refine ih (ls ++ [l]) _ p ?_
      all_goals
        intro x hx
        rcases List.mem_append.mp hx with hx | hx
        · exact h x hx
        · simp only [List.mem_singleton] at hx
          subst hx
          exact hm

/-- C10: the string returned by `extractSectionContent` contains no
occurrence of the page-marker pattern `=== PAGE n ===` at all — in both
the anchor pass and the page-number fallback pass, marker lines are
consumed to track the current page and never copied into the output
(`pageMarker` scans every position of a string, so "`= none`" on the
whole multi-line result means no result line matches the pattern). -/
theorem c10_extracted_content_has_no_page_marker (text : List Char)
    (sec : SectionD) (next : Option SectionD) :
    pageMarker (extractSectionContent text sec next) = none := by
  obtain ⟨ls1, h1, hm1⟩ :=
    extractGo_content_shape sec next (splitLines text) [] false 1 (by simp)
  obtain ⟨ls2, h2, hm2⟩ :=
    fallbackGo_content_shape sec (splitLines text) [] false 1 (by simp)
  simp only [appendNL] at h1 h2
  simp only [extractSectionContent]
  split
  · rw [h2]
    exact pageMarker_infix _ _ (pageMarker_appendNL ls2 hm2) (trim_within _)
  · rw [h1]
    exact pageMarker_infix _ _ (pageMarker_appendNL ls1 hm1) (trim_within _)

example :
    fullRunProgressWrites false ⟨1, .awaiting_outline_approval,
        [⟨"X".data, 1, 2, none, none⟩]⟩ none (fun _ => []) =
      [25, 30, 35, 45, 60, 65, 65, 65, 75, 75, 75, 95, 100, 95, 98, 100] := by
  decide

/-- C3: resuming a Document whose current status is anything other than
`awaiting_outline_approval` is rejected with the client-visible
"Document not awaiting approval" error and performs no durable write at
all (no Document mutation, no Section insert). -/
theorem c3_resume_requires_awaiting_status (doc : Doc)
    (updatedTableOfContents : Option (List SectionD))
    (summaries : Nat → List Char)
    (h : doc.status ≠ DocStatus.awaiting_outline_approval) :
    continueAction true (some doc) updatedTableOfContents summaries =
      (.error ContErr.notAwaiting, []) := by
  simp [continueAction, h]

/-- Witness for C3 at a concrete completed Document. -/
theorem c3_resume_requires_awaiting_status_witness :
    (⟨1, .completed, []⟩ : Doc).status ≠ DocStatus.awaiting_outline_approval ∧
      continueAction true (some ⟨1, .completed, []⟩) none (fun _ => []) =
        (.error ContErr.notAwaiting, []) :=
  ⟨by decide, c3_resume_requires_awaiting_status _ none _ (by decide)⟩

lemma insertedRows_append (a b : List ContMut) :
    insertedRows (a ++ b) = insertedRows a ++ insertedRows b :=
  List.filterMap_append ..

lemma insertedRows_flatMap (docId n : Nat) (summaries : Nat → List Char)
    (l : List (Nat × SectionD)) :
    insertedRows (l.flatMap (fun p => sectionBlock docId n summaries p.1 p.2)) =
      l.map (fun p => (⟨docId, p.2.title, summaries p.1, p.2.start_page,
        p.2.end_page, p.1 + 1⟩ : SectionRow)) := by
  induction l with
  | nil => rfl
  | cons p rest ih =>
    simp only [List.flatMap_cons, List.map_cons]
    rw [insertedRows_append, ih]
    rfl

lemma continueAction_rows (doc : Doc) (utoc : Option (List SectionD))
    (summaries : Nat → List Char)
    (hst : doc.status = DocStatus.awaiting_outline_approval) :
    insertedRows (continueAction true (some doc) utoc summaries).2 =
      (utoc.getD doc.tableOfContents).enum.map
        (fun p => (⟨doc.id, p.2.title, summaries p.1, p.2.start_page,
          p.2.end_page, p.1 + 1⟩ : SectionRow)) := by
  have hmut : (continueAction true (some doc) utoc summaries).2 =
      [.approve, .statusUpd (some 75)] ++
        (utoc.getD doc.tableOfContents).enum.flatMap
          (fun p => sectionBlock doc.id (utoc.getD doc.tableOfContents).length
            summaries p.1 p.2) ++
        [.statusUpd (some 95), .statusUpd (some 98), .completeUpd] := by
    simp [continueAction, hst]
  rw [hmut, insertedRows_append, insertedRows_append, insertedRows_flatMap]
  simp [insertedRows]

/-- C9 counterexample: the continuation stage accepts an outline whose
descriptor has `start_page > end_page` (no validation is performed), and
persists a Section row with `startPage = 5 > endPage = 2`. -/
theorem c9_counterexample :
    ¬ (∀ r ∈ insertedRows (continueAction true
        (some ⟨1, .awaiting_outline_approval, [⟨"X".data, 5, 2, none, none⟩]⟩)
        none (fun _ => [])).2, r.startPage ≤ r.endPage) := by
  decide

/-- C9 (amended): the continuation stage copies `start_page`/`end_page`
verbatim from the accepted outline into each persisted Section row, so
every persisted row satisfies `startPage ≤ endPage` exactly when every
descriptor of the accepted outline (the user-edited one if supplied,
otherwise the stored one) satisfies `start_page ≤ end_page`; the stage
itself performs no validation. -/
theorem c9_rows_preserve_page_invariant (doc : Doc)
    (utoc : Option (List SectionD)) (summaries : Nat → List Char)
    (h : ∀ s ∈ utoc.getD doc.tableOfContents, s.start_page ≤ s.end_page) :
    ∀ r ∈ insertedRows (continueAction true (some doc) utoc summaries).2,
      r.startPage ≤ r.endPage := by
  intro r hr
  by_cases hst : doc.status = DocStatus.awaiting_outline_approval
  · rw [continueAction_rows doc utoc summaries hst] at hr
    obtain ⟨p, hp, rfl⟩ := List.mem_map.mp hr
    exact h p.2 (List.snd_mem_of_mem_enum hp)
  · have hrej : continueAction true (some doc) utoc summaries =
        (.error .notAwaiting, []) := by
      simp [continueAction, hst]
    rw [hrej] at hr
    simp [insertedRows] at hr

/-- Witness for C9 (amended) at a one-section outline with pages 2–4. -/
theorem c9_rows_preserve_page_invariant_witness :
    (∀ s ∈ (none : Option (List SectionD)).getD
        ((⟨1, .awaiting_outline_approval,
          [⟨"X".data, 2, 4, none, none⟩]⟩ : Doc).tableOfContents),
      s.start_page ≤ s.end_page) ∧
    ∀ r ∈ insertedRows (continueAction true
        (some ⟨1, .awaiting_outline_approval, [⟨"X".data, 2, 4, none, none⟩]⟩)
        none (fun _ => [])).2, r.startPage ≤ r.endPage :=
  ⟨by decide, c9_rows_preserve_page_invariant _ _ _ (by decide)⟩

lemma filterMap_flatMap {α β γ : Type} (f : β → Option γ) (g : α → List β)
    (l : List α) :
    (l.flatMap g).filterMap f = l.flatMap (fun a => (g a).filterMap f) := by
  induction l with
  | nil => rfl
  | cons a rest ih => simp [List.flatMap_cons, List.filterMap_append, ih]

lemma flatMap_map {α β γ : Type} (f : α → β) (g : β → List γ) (l : List α) :
    (l.map f).flatMap g = l.flatMap (fun x => g (f x)) := by
  induction l with
  | nil => rfl
  | cons a rest ih => simp only [List.map_cons, List.flatMap_cons, ih]

lemma continueAction_trace (doc : Doc) (utoc : Option (List SectionD))
    (summaries : Nat → List Char)
    (hst : doc.status = DocStatus.awaiting_outline_approval) :
    (continueAction true (some doc) utoc summaries).2.filterMap mutProgress =
      contTraceN (utoc.getD doc.tableOfContents).length := by
  have hmut : (continueAction true (some doc) utoc summaries).2 =
      [.approve, .statusUpd (some 75)] ++
        (utoc.getD doc.tableOfContents).enum.flatMap
          (fun p => sectionBlock doc.id (utoc.getD doc.tableOfContents).length
            summaries p.1 p.2) ++
        [.statusUpd (some 95), .statusUpd (some 98), .completeUpd] := by
    simp [continueAction, hst]
  rw [hmut]
  rw [List.filterMap_append, List.filterMap_append, filterMap_flatMap]
  have hblock : ∀ p : Nat × SectionD,
      (sectionBlock doc.id (utoc.getD doc.tableOfContents).length summaries
        p.1 p.2).filterMap mutProgress =
        blockP (utoc.getD doc.tableOfContents).length p.1 := by
    intro p; rfl
  simp only [hblock]
  have henum : (utoc.getD doc.tableOfContents).enum.flatMap
      (fun p => blockP (utoc.getD doc.tableOfContents).length p.1) =
      (List.range (utoc.getD doc.tableOfContents).length).flatMap
        (blockP (utoc.getD doc.tableOfContents).length) := by
    rw [← List.enum_map_fst (utoc.getD doc.tableOfContents), flatMap_map]
  rw [henum]
  rfl

lemma roundHalfUp_total (n : Nat) (h : 1 ≤ n) : roundHalfUp (25 * n) n = 25 := by
  unfold roundHalfUp
  have h2 : 2 * (25 * n) + n = n + 2 * n * 25 := by ring
  rw [h2, Nat.add_mul_div_left _ _ (by omega : 0 < 2 * n),
    Nat.div_eq_of_lt (by omega)]

lemma contTraceN_suffix (n : Nat) (h : 1 ≤ n) :
    ∃ pre, contTraceN n = pre ++ [100, 95, 98, 100] := by
  obtain ⟨m, rfl⟩ : ∃ m, n = m + 1 := ⟨n - 1, by omega⟩
  refine ⟨75 :: ((List.range m).flatMap (blockP (m + 1)) ++
    [75 + roundHalfUp (25 * m) (m + 1), 75 + roundHalfUp (25 * m) (m + 1),
      75 + roundHalfUp (20 * (m + 1)) (m + 1)]), ?_⟩
  unfold contTraceN
  rw [List.range_succ, List.flatMap_append]
  simp [blockP, roundHalfUp_total (m + 1) (by omega), List.append_assoc]

lemma trace_chain_small (custom : Bool) (n : Nat) (h1 : 1 ≤ n) (h5 : n ≤ 5) :
    nonDecreasing ((processProgressWrites custom ++ contTraceN n).take
      ((processProgressWrites custom ++ contTraceN n).length - 3)) = true := by
  interval_cases n <;> cases custom <;> decide

/-- C2 counterexample: the progress trace of a successful one-section run
is not non-decreasing — the last per-section write is 100 and the
finalization writes 95 and 98 follow it before the terminal 100 (and the
trace starts at 25, not 0). -/
theorem c2_counterexample :
    nonDecreasing (fullRunProgressWrites false
      ⟨1, .awaiting_outline_approval, [⟨"X".data, 1, 2, none, none⟩]⟩ none
      (fun _ => [])) = false := by
  decide

/-- C2 (amended): over every successful run (process stage then
continuation) with at least one section, the first progress value written
is 25 (not 0) and the run ends with the writes `…, 100, 95, 98, 100` —
the last per-section write always reaches 100 and is followed by the
finalization writes 95 and 98 before the terminal 100, so the full
sequence is not non-decreasing; apart from those three trailing writes the
sequence is non-decreasing whenever the run has at most five sections
(with more sections the PDF-stage write inside a section can also dip). -/
theorem c2_progress_trace_shape (custom : Bool) (doc : Doc)
    (utoc : Option (List SectionD)) (summaries : Nat → List Char)
    (hst : doc.status = DocStatus.awaiting_outline_approval)
    (hn : 1 ≤ (utoc.getD doc.tableOfContents).length) :
    (fullRunProgressWrites custom doc utoc summaries).head? = some 25 ∧
      (∃ pre, fullRunProgressWrites custom doc utoc summaries =
        pre ++ [100, 95, 98, 100]) ∧
      ((utoc.getD doc.tableOfContents).length ≤ 5 →
        nonDecreasing
          ((fullRunProgressWrites custom doc utoc summaries).take
            ((fullRunProgressWrites custom doc utoc summaries).length - 3)) =
          true) := by
  have htr : fullRunProgressWrites custom doc utoc summaries =
      processProgressWrites custom ++
        contTraceN (utoc.getD doc.tableOfContents).length := by
    unfold fullRunProgressWrites
    rw [continueAction_trace doc utoc summaries hst]
  refine ⟨?_, ?_, ?_⟩
  · rw [htr]
    cases custom <;> rfl
  · obtain ⟨pre, hpre⟩ := contTraceN_suffix _ hn
    exact ⟨processProgressWrites custom ++ pre,
      by rw [htr, hpre, List.append_assoc]⟩
  · intro h5
    rw [htr]
    exact trace_chain_small custom _ hn h5

/-- Witness for C2 (amended) at a concrete one-section run. -/
theorem c2_progress_trace_shape_witness :
    ((⟨1, .awaiting_outline_approval, [⟨"X".data, 1, 2, none, none⟩]⟩ : Doc).status =
        DocStatus.awaiting_outline_approval ∧
      1 ≤ ((none : Option (List SectionD)).getD
        ((⟨1, .awaiting_outline_approval,
          [⟨"X".data, 1, 2, none, none⟩]⟩ : Doc).tableOfContents)).length) ∧
    ((fullRunProgressWrites false
        ⟨1, .awaiting_outline_approval, [⟨"X".data, 1, 2, none, none⟩]⟩ none
        (fun _ => [])).head? = some 25 ∧
      (∃ pre, fullRunProgressWrites false
          ⟨1, .awaiting_outline_approval, [⟨"X".data, 1, 2, none, none⟩]⟩ none
          (fun _ => []) = pre ++ [100, 95, 98, 100]) ∧
      (((none : Option (List SectionD)).getD
          ((⟨1, .awaiting_outline_approval,
            [⟨"X".data, 1, 2, none, none⟩]⟩ : Doc).tableOfContents)).length ≤ 5 →
        nonDecreasing
          ((fullRunProgressWrites false
              ⟨1, .awaiting_outline_approval, [⟨"X".data, 1, 2, none, none⟩]⟩
              none (fun _ => [])).take
            ((fullRunProgressWrites false
              ⟨1, .awaiting_outline_approval, [⟨"X".data, 1, 2, none, none⟩]⟩
              none (fun _ => [])).length - 3)) = true)) :=
  ⟨⟨rfl, by decide⟩,
    c2_progress_trace_shape false _ none (fun _ => []) rfl (by decide)⟩

end Summarizer
